import Mathlib

/-!
# Verification of the NewsComparator text-analytics pipeline

Shallow embedding, in Lean 4, of the algorithmic core of the NewsComparator
repository (`archived_methods.py` and `main.py`): document normalization
(`full_text` construction), TF-IDF top-keyword extraction, LDA topic-step input
construction, embedding-based keyword ranking, RAKE word scoring, n-gram
extraction and frequency ranking.

Python strings are modelled as Lean `String` over their character lists
(ASCII-oriented: `\w` is letter/digit/underscore, `\s` is whitespace).
Python floats appearing in TF-IDF weights are modelled as real numbers;
rational arithmetic (`ℚ`) is used where the computation is exact
(RAKE degree/frequency ratios, similarity scores treated as given inputs).
External library calls (NLTK tokenizers, the sentence encoder, gensim's LDA
inference) enter the model only through their documented input/output
contracts; the repository's own computations are translated line by line.
-/

namespace NewsComparator

/-- ASCII model of the regex word-character class `\w`: letters, digits and
underscore. -/
def isWordChar (c : Char) : Bool := c.isAlphanum || c = '_'

/-- A body segment passes the truthiness test of
`re.sub(r'[^\w\s]', '', text)` exactly when deleting every character that is
neither a word character nor whitespace leaves a non-empty string, i.e. the
segment contains at least one word character or whitespace character
(`archived_methods.py` line 114, `main.py` line 585). -/
def keepSegment (s : String) : Bool :=
  s.toList.any (fun c => isWordChar c || c.isWhitespace)

/-- The JSON `subtitle` field of an input record: a list of strings, a plain
string, or null/absent. -/
inductive SubtitleField
  | list (l : List String)
  | str (s : String)
  | null

/-- `sub = article['subtitle'] if type(article['subtitle']) == list else
[article['subtitle']] if article['subtitle'] else []`
(`archived_methods.py` line 112, `main.py` line 583): a list is kept as is, a
truthy (non-empty) string becomes a singleton list, a falsy value becomes the
empty list. -/
def subtitleSegs : SubtitleField → List String
  | .list l => l
  | .str s => if s = "" then [] else [s]
  | .null => []

/-- `article['full_text'] = ' '.join(([article['title']] if article['title']
else []) + sub + [text for text in article['article_text'] if
re.sub(r'[^\w\s]', '', text)])`
(`archived_methods.py` lines 112-114, `main.py` lines 583-585). -/
def fullText (title : String) (sub : SubtitleField) (body : List String) : String :=
  String.intercalate " "
    ((if title = "" then [] else [title]) ++ subtitleSegs sub ++ body.filter keepSegment)

/-- Spec-side description of `full_text` (amended): the space-joined
concatenation of the non-empty title, the subtitle segments, and the body
segments that are not excluded, where a body segment is excluded exactly when
every one of its characters is neither a word character nor whitespace (the
empty and the punctuation-only segments); whitespace-only segments are kept. -/
def specFullText (title : String) (sub : SubtitleField) (body : List String) : String :=
  String.intercalate " "
    ((if title = "" then [] else [title]) ++ subtitleSegs sub ++
      body.filter (fun s => !(s.toList.all (fun c => !(isWordChar c) && !(c.isWhitespace)))))

/-- C1, counterexample: at title `"A B"`, subtitle `["C"]`, body
`["D.", "  "]` the pipeline does not produce `"A B C D."`: the whitespace-only
body segment `"  "` survives the filter (it still contains whitespace after
punctuation removal), so the join carries three trailing spaces. -/
theorem fullText_claimed_example_fails :
    fullText "A B" (.list ["C"]) ["D.", "  "] ≠ "A B C D." ∧
      fullText "A B" (.list ["C"]) ["D.", "  "] = "A B C D.   " := by
  constructor
  · decide
  · decide

/-- C1 (amended): for every input document, `full_text` equals the space-joined
concatenation of the non-empty title, the subtitle segments (string coerced to
singleton, absent to empty), and the body segments in original order, where a
body segment is excluded exactly when it contains no word character and no
whitespace (empty and punctuation-only segments); whitespace-only segments are
kept, so the example input yields `"A B C D.   "`. -/
theorem fullText_spec_amended :
    (∀ (title : String) (sub : SubtitleField) (body : List String),
        fullText title sub body = specFullText title sub body) ∧
      fullText "A B" (.list ["C"]) ["D.", "  "] = "A B C D.   " := by
  constructor
  · intro title sub body
    have h : keepSegment =
        fun s : String => !(s.toList.all fun c => !(isWordChar c) && !(c.isWhitespace)) := by
      funext s
      simp [keepSegment, List.any_eq_not_all_not]
    rw [fullText, specFullText, h]
  · decide

/-! ## Corpus-relative (TF-IDF) top-5 keyword extraction

`archived_methods.py` lines 129-145: given a document's vocabulary terms
already arranged in descending TF-IDF weight order (`feature_array[argsort]`),
the raw-text branch scans with an explicit loop collecting terms not in the
stop-word set until 5 are collected, while the lemmatized-text branch simply
takes the first 5 terms with no stop-word check. -/

/-- The raw-branch collection loop (lines 132-139): `j` counts terms collected
so far; a non-stop term is appended and `j` incremented; after every iteration
the loop breaks once `j >= 5`. -/
def topRawScan (stop : List String) : List String → Nat → List String
  | [], _ => []
  | k :: rest, j =>
    if k ∈ stop then
      if 5 ≤ j then [] else topRawScan stop rest j
    else
      if 5 ≤ j + 1 then [k] else k :: topRawScan stop rest (j + 1)

/-- Raw-text top keywords: run the scan over the descending-weight term list
starting with zero collected (lines 132-139). -/
def topKeywordsRaw (features stop : List String) : List String :=
  topRawScan stop features 0

/-- Lemmatized-text top keywords:
`[keyword for keyword in feature_array_lem[tfidf_sorting_lem][:N]]` (line 142)
takes the first 5 descending-weight terms with no stop-word filtering. -/
def topKeywordsLem (features : List String) : List String :=
  features.take 5

/-- The scan started with `j` collected equals the first `5 - j` non-stop
terms: the loop is skip-and-continue. -/
theorem topRawScan_eq_filter_take (stop : List String) :
    ∀ (ks : List String) (j : Nat), j < 5 →
      topRawScan stop ks j = (ks.filter (fun k => k ∉ stop)).take (5 - j)
  | [], j, _ => by simp [topRawScan]
  | k :: rest, j, hj => by
    by_cases hk : k ∈ stop
    · rw [topRawScan, if_pos hk, if_neg (by omega)]
      rw [topRawScan_eq_filter_take stop rest j hj]
      simp [hk]
    · by_cases hj4 : 5 ≤ j + 1
      · have hj' : j = 4 := by omega
        rw [topRawScan, if_neg hk, if_pos hj4, hj']
        simp [hk]
      · rw [topRawScan, if_neg hk, if_neg hj4]
        rw [topRawScan_eq_filter_take stop rest (j + 1) (by omega)]
        have h5 : 5 - j = (5 - (j + 1)) + 1 := by omega
        simp [hk, h5]

/-- C2, counterexample: the lemmatized-branch top-5 list can contain a
stop-word term — the branch applies no stop-word filter at all, so with the
stop word `"the"` heading the descending-weight vocabulary it is reported. -/
theorem topKeywordsLem_keeps_stop_word :
    topKeywordsLem ["the", "cat", "sat", "on", "mat", "rug"] =
        ["the", "cat", "sat", "on", "mat"] ∧
      "the" ∈ topKeywordsLem ["the", "cat", "sat", "on", "mat", "rug"] := by
  decide

/-- C2 (amended): only the raw-text ranking excludes stop words, and it is
skip-and-continue — the scan equals taking the first 5 terms of the
descending-weight list filtered of stop words, so no raw top keyword is a stop
word; the lemmatized-text ranking takes the first 5 terms unfiltered. -/
theorem top5_stop_word_handling (features stop : List String) :
    topKeywordsRaw features stop = (features.filter (fun k => k ∉ stop)).take 5 ∧
      (∀ w ∈ topKeywordsRaw features stop, w ∉ stop) ∧
      topKeywordsLem features = features.take 5 := by
  have heq : topKeywordsRaw features stop = (features.filter (fun k => k ∉ stop)).take 5 := by
    rw [topKeywordsRaw, topRawScan_eq_filter_take stop features 0 (by omega)]
  refine ⟨heq, ?_, rfl⟩
  intro w hw
  rw [heq] at hw
  have := List.mem_of_mem_take hw
  simpa using List.of_mem_filter this

/-- C2 witness: at a concrete descending-weight list and stop set, the raw
scan returns the filtered prefix and its members avoid the stop set. -/
theorem top5_stop_word_handling_witness :
    topKeywordsRaw ["the", "cat", "sat"] ["the"] =
        ((["the", "cat", "sat"].filter (fun k => k ∉ (["the"] : List String))).take 5) ∧
      "cat" ∉ (["the"] : List String) :=
  ⟨(top5_stop_word_handling ["the", "cat", "sat"] ["the"]).1,
    (top5_stop_word_handling ["the", "cat", "sat"] ["the"]).2.1 "cat" (by decide)⟩

/-! ## Topic-modeling step input construction

`archived_methods.py` lines 147-153: the full text is split on the literal
period character, each pseudo-sentence is run through `preprocess` (regex
word tokens, lowercased, stop words removed), a gensim dictionary is built
over the token lists and `LdaModel` is fitted. -/

/-- Maximal runs of word characters in a character list, accumulating the
current (reversed) run: the ASCII model of `re.findall(r'\b\w+\b', text)`. -/
def wordRunsAux : List Char → List Char → List String
  | [], acc => if acc.isEmpty then [] else [String.mk acc.reverse]
  | c :: cs, acc =>
    if isWordChar c then wordRunsAux cs (c :: acc)
    else if acc.isEmpty then wordRunsAux cs []
    else String.mk acc.reverse :: wordRunsAux cs []

/-- All maximal word-character runs of a character list, in order. -/
def wordRuns (cs : List Char) : List String := wordRunsAux cs []

/-- `preprocess(text, stop_words)` (`archived_methods.py` lines 49-52):
lowercase, extract regex word tokens, drop stop words. -/
def preprocess (text : String) (stop : List String) : List String :=
  (wordRuns (text.toList.map Char.toLower)).filter (fun t => t ∉ stop)

/-- Python's `str.split('.')`: pieces between literal periods, empty pieces
included, accumulating the current (reversed) piece. -/
def splitDotAux : List Char → List Char → List String
  | [], acc => [String.mk acc.reverse]
  | c :: cs, acc =>
    if c = '.' then String.mk acc.reverse :: splitDotAux cs []
    else splitDotAux cs (c :: acc)

/-- `full_text.split('.')` (`archived_methods.py` line 147). -/
def splitDot (s : String) : List String := splitDotAux s.toList []

/-- The topic-step input construction and model fit (`archived_methods.py`
lines 147-150): pseudo-sentences from splitting on periods, preprocessed into
token lists, fed to `corpora.Dictionary` and `LdaModel`. gensim's
`LdaModel.__init__` raises `ValueError` when the dictionary is empty (no term
occurs in any pseudo-sentence); the repository applies no guard around the
call, so the step is modelled as `Except`, erroring exactly on an empty
vocabulary. The latent-topic inference itself is the external library's
numerical computation and is out of scope; on success the step returns the
token lists handed to the model. -/
def topicStep (text : String) (stop : List String) : Except String (List (List String)) :=
  let texts := (splitDot text).map (fun sent => preprocess sent stop)
  if texts.flatten = [] then
    .error "cannot compute LDA over an empty collection (no terms)"
  else
    .ok texts

example : topicStep "cats. dogs." [] = .ok [["cats"], ["dogs"], []] := rfl

/-- C3: a document whose pseudo-sentence token lists are all empty (here
`"the. of."` under a stop set containing `"the"` and `"of"`, both NLTK English
stop words) drives the unguarded `LdaModel` call into its empty-collection
`ValueError`: the code raises instead of annotating an empty topic result. -/
theorem topicStep_errors_on_degenerate_input :
    topicStep "the. of." ["the", "of"] =
      .error "cannot compute LDA over an empty collection (no terms)" := rfl

/-! ## N-gram extraction and frequency ranking

`archived_methods.py` lines 55-61 (`extract_ngrams`) and 163-196 (bigram and
trigram tallies). Tokenization (`word_tokenize` followed by the filter keeping
tokens containing a word character) is the external NLTK tokenizer; the
extractor is modelled from the resulting token list on. -/

/-- `ngrams = [tuple(words[i:i + n]) for i in range(len(words) - n + 1)]`
joined with spaces (lines 59-61). `range(len(words) - n + 1)` is empty when
`len(words) - n + 1 <= 0`, which the truncated-subtraction bound
`len + 1 - n` reproduces. -/
def extractNgrams (words : List String) (n : Nat) : List String :=
  (List.range (words.length + 1 - n)).map
    (fun i => String.intercalate " " ((words.drop i).take n))

example : extractNgrams ["a", "b", "c"] 2 = ["a b", "b c"] := by decide

example : extractNgrams ["a", "b"] 3 = [] := by decide

/-- C7: for a token list of length `L` and width `n ≥ 1`, the extractor
returns exactly `max(0, L - n + 1)` n-grams, and every returned n-gram is the
space-join of `n` contiguous tokens of the input in their original order. -/
theorem extractNgrams_length_and_windows (words : List String) (n : Nat) (_hn : 1 ≤ n) :
    ((extractNgrams words n).length : ℤ) = max 0 ((words.length : ℤ) - n + 1) ∧
      ∀ g ∈ extractNgrams words n, ∃ i, i + n ≤ words.length ∧
        ((words.drop i).take n).length = n ∧
        g = String.intercalate " " ((words.drop i).take n) := by
  constructor
  · simp only [extractNgrams, List.length_map, List.length_range]
    omega
  · intro g hg
    simp only [extractNgrams, List.mem_map, List.mem_range] at hg
    obtain ⟨i, hi, rfl⟩ := hg
    refine ⟨i, by omega, ?_, rfl⟩
    simp only [List.length_take, List.length_drop]
    omega

/-- C7 witness: the theorem instantiated at the token list
`["a", "b", "c"]` and width 2. -/
theorem extractNgrams_length_and_windows_witness :
    ((extractNgrams ["a", "b", "c"] 2).length : ℤ) =
        max 0 (((["a", "b", "c"] : List String).length : ℤ) - 2 + 1) ∧
      ∀ g ∈ extractNgrams ["a", "b", "c"] 2, ∃ i,
        i + 2 ≤ (["a", "b", "c"] : List String).length ∧
        (((["a", "b", "c"] : List String).drop i).take 2).length = 2 ∧
        g = String.intercalate " " (((["a", "b", "c"] : List String).drop i).take 2) :=
  extractNgrams_length_and_windows ["a", "b", "c"] 2 (by decide)

/-- First-occurrence scan: keep each n-gram the first time it appears,
remembering the set of n-grams already seen. -/
def firstOccurAux : List String → List String → List String
  | [], _ => []
  | g :: gs, seen =>
    if g ∈ seen then firstOccurAux gs seen
    else g :: firstOccurAux gs (g :: seen)

/-- The distinct n-grams in order of first occurrence: the iteration order of
the insertion-ordered Python dict `bigram_freq` / `trigram_freq`
(`archived_methods.py` lines 165-171). -/
def firstOccurrences (ngrams : List String) : List String :=
  firstOccurAux ngrams []

/-- `freq.items()`: each distinct n-gram, in first-occurrence order, paired
with its number of occurrences (exact string equality). -/
def freqItems (ngrams : List String) : List (String × Nat) :=
  (firstOccurrences ngrams).map (fun g => (g, ngrams.count g))

/-- The comparison used by `sorted(freq.items(), key=lambda x: x[1],
reverse=True)`: descending count. Python's `sorted` is stable, and stability
is preserved under `reverse=True` (equal elements keep their original order),
which insertion sort under this non-strict relation reproduces. -/
def countDescRel (a b : String × Nat) : Prop := b.2 ≤ a.2

instance : DecidableRel countDescRel := fun a b => Nat.decLe b.2 a.2

instance : IsTotal (String × Nat) countDescRel :=
  ⟨fun a b => Nat.le_total b.2 a.2⟩

instance : IsTrans (String × Nat) countDescRel :=
  ⟨fun _ _ _ hab hbc => Nat.le_trans hbc hab⟩

/-- `sorted(freq.items(), key=lambda x: x[1], reverse=True)`
(lines 173-174 and 191-192). -/
def rankedNgrams (ngrams : List String) : List (String × Nat) :=
  List.insertionSort countDescRel (freqItems ngrams)

/-- `sorted(...)[:5]`: the reported top five. -/
def topFiveNgrams (ngrams : List String) : List (String × Nat) :=
  (rankedNgrams ngrams).take 5

/-- Inserting a pair into a list changes the sublist of entries with count `c`
only by prepending the pair when its own count is `c`: every entry the
insertion walks past has a strictly larger count. -/
theorem filter_count_orderedInsert (c : Nat) (x : String × Nat) :
    ∀ l : List (String × Nat),
      (List.orderedInsert countDescRel x l).filter (fun p => p.2 = c) =
        if x.2 = c then x :: l.filter (fun p => p.2 = c)
        else l.filter (fun p => p.2 = c)
  | [] => by
    simp only [List.orderedInsert, List.filter]
    by_cases hx : x.2 = c <;> simp [hx]
  | y :: l => by
    by_cases hxy : countDescRel x y
    · rw [List.orderedInsert, if_pos hxy]
      by_cases hx : x.2 = c <;> simp [hx, List.filter]
    · rw [List.orderedInsert, if_neg hxy]
      have hy : x.2 < y.2 := Nat.lt_of_not_le hxy
      by_cases hyc : y.2 = c
      · have hx : ¬x.2 = c := by omega
        simp [List.filter_cons, hyc, hx, filter_count_orderedInsert c x l]
      · simp [List.filter_cons, hyc, filter_count_orderedInsert c x l]

/-- Insertion sort under the descending-count relation is stable: for every
count value, the entries carrying that count appear in the sorted output in
exactly their input order. -/
theorem filter_count_insertionSort (c : Nat) :
    ∀ l : List (String × Nat),
      (List.insertionSort countDescRel l).filter (fun p => p.2 = c) =
        l.filter (fun p => p.2 = c)
  | [] => rfl
  | x :: l => by
    rw [List.insertionSort, filter_count_orderedInsert c x (List.insertionSort countDescRel l)]
    by_cases hx : x.2 = c <;>
      simp [List.filter_cons, hx, filter_count_insertionSort c l]

/-- C8: the reported list is the first five entries of the ranked list; the
ranked list is ordered by descending occurrence count, each entry's count is
the number of exact-string-equality occurrences of its n-gram, and among
entries with equal count the order is the first-occurrence order of the
n-grams (the sort is stable over the insertion-ordered tally). -/
theorem topFiveNgrams_ranking (ngrams : List String) :
    topFiveNgrams ngrams = (rankedNgrams ngrams).take 5 ∧
      List.Sorted countDescRel (rankedNgrams ngrams) ∧
      (∀ p ∈ rankedNgrams ngrams, p.2 = ngrams.count p.1) ∧
      ∀ c, (rankedNgrams ngrams).filter (fun p => p.2 = c) =
        (freqItems ngrams).filter (fun p => p.2 = c) := by
  refine ⟨rfl, List.sorted_insertionSort countDescRel _, ?_, fun c => filter_count_insertionSort c _⟩
  intro p hp
  have hp' : p ∈ freqItems ngrams :=
    (List.perm_insertionSort countDescRel (freqItems ngrams)).mem_iff.mp hp
  simp only [freqItems, List.mem_map] at hp'
  obtain ⟨g, _, rfl⟩ := hp'
  rfl

/-- C8 witness: the theorem instantiated at the bigrams of the token list
`["a", "b", "a", "b"]`, extracting the count of the repeated bigram `"a b"`. -/
theorem topFiveNgrams_ranking_witness :
    List.Sorted countDescRel (rankedNgrams (extractNgrams ["a", "b", "a", "b"] 2)) ∧
      ("a b", 2).2 = (extractNgrams ["a", "b", "a", "b"] 2).count ("a b", 2).1 :=
  ⟨(topFiveNgrams_ranking (extractNgrams ["a", "b", "a", "b"] 2)).2.1,
    (topFiveNgrams_ranking (extractNgrams ["a", "b", "a", "b"] 2)).2.2.1 ("a b", 2) (by decide)⟩

/-! ## RAKE word scoring

`archived_methods.py` lines 64-98 (`rake_keywords`). The sentence split is the
external-regex step; within a sentence the code splits on a punctuation
character class, lowercases and drops empty pieces, so a "word" here is a
punctuation-delimited chunk (it may contain spaces). The model takes each
sentence as its list of such chunks and reproduces the phrase loop and the
degree/frequency scoring exactly. -/

/-- The per-sentence phrase loop (lines 73-82): a stop-word token closes the
current phrase (appended only if non-empty); any other token extends it; a
trailing non-empty phrase is appended when the sentence ends. -/
def phraseLoop (stop : List String) : List String → List String → List (List String)
  | [], phrase => if phrase.isEmpty then [] else [phrase]
  | w :: ws, phrase =>
    if w ∈ stop then
      (if phrase.isEmpty then [] else [phrase]) ++ phraseLoop stop ws []
    else
      phraseLoop stop ws (phrase ++ [w])

/-- All phrases of the document: the per-sentence phrase lists concatenated in
order (lines 70-82). -/
def buildPhrases (sentences : List (List String)) (stop : List String) : List (List String) :=
  (sentences.map (fun words => phraseLoop stop words [])).flatten

/-- `word_freq[word]` (lines 85-91): the number of phrases containing the word
(each phrase counted once via its set of unique words). -/
def wordFreq (phrases : List (List String)) (w : String) : Nat :=
  phrases.countP (fun p => w ∈ p)

/-- `word_degree[word]` (lines 85-91): the sum of the lengths of the phrases
containing the word (again one contribution per phrase). -/
def wordDegree (phrases : List (List String)) (w : String) : Nat :=
  ((phrases.filter (fun p => w ∈ p)).map List.length).sum

/-- `scores = {word: word_degree[word] / word_freq[word] ...}` (line 93),
in exact rational arithmetic. -/
def rakeScore (phrases : List (List String)) (w : String) : ℚ :=
  (wordDegree phrases w : ℚ) / (wordFreq phrases w : ℚ)

example : buildPhrases [["cat", "the", "sat mat"]] ["the"] = [["cat"], ["sat mat"]] := by decide

/-- A list of non-empty lists is at least as long as it is numerous: used to
compare a word's degree with its frequency. -/
theorem length_le_sum_map_length :
    ∀ l : List (List String), (∀ p ∈ l, p ≠ []) → l.length ≤ (l.map List.length).sum
  | [], _ => Nat.le_refl 0
  | p :: l, h => by
    have hp : 1 ≤ p.length :=
      List.length_pos.mpr (h p (List.mem_cons_self p l))
    have ih := length_le_sum_map_length l (fun q hq => h q (List.mem_cons_of_mem p hq))
    simp only [List.length_cons, List.map_cons, List.sum_cons]
    omega

/-- A word's frequency never exceeds its degree: every phrase containing the
word is non-empty, so it contributes at least 1 to the degree. -/
theorem wordFreq_le_wordDegree (phrases : List (List String)) (w : String) :
    wordFreq phrases w ≤ wordDegree phrases w := by
  rw [wordFreq, wordDegree, List.countP_eq_length_filter]
  refine length_le_sum_map_length _ ?_
  intro p hp
  have := List.of_mem_filter hp
  rcases p with _ | _
  · simp at this
  · simp

/-- C6: for every sentence list and stop set, a scored word's score equals its
degree divided by its frequency, never exceeds its degree, and is at least
1 / frequency; and when the phrase segmentation yields exactly one phrase of
`k` distinct words, every word of that phrase has degree `k`, frequency 1 and
score `k`. -/
theorem rakeScore_bounds (sentences : List (List String)) (stop : List String) (w : String) :
    (0 < wordFreq (buildPhrases sentences stop) w →
      rakeScore (buildPhrases sentences stop) w =
          (wordDegree (buildPhrases sentences stop) w : ℚ) /
            (wordFreq (buildPhrases sentences stop) w : ℚ) ∧
        rakeScore (buildPhrases sentences stop) w ≤
          (wordDegree (buildPhrases sentences stop) w : ℚ) ∧
        1 / (wordFreq (buildPhrases sentences stop) w : ℚ) ≤
          rakeScore (buildPhrases sentences stop) w) ∧
      ∀ p k, buildPhrases sentences stop = [p] → p.Nodup → p.length = k → w ∈ p →
        wordDegree (buildPhrases sentences stop) w = k ∧
          wordFreq (buildPhrases sentences stop) w = 1 ∧
          rakeScore (buildPhrases sentences stop) w = (k : ℚ) := by
  constructor
  · intro hf
    set phrases := buildPhrases sentences stop with hph
    have hdf : wordFreq phrases w ≤ wordDegree phrases w := wordFreq_le_wordDegree phrases w
    have hfQ : (0 : ℚ) < (wordFreq phrases w : ℚ) := by exact_mod_cast hf
    have hfQ1 : (1 : ℚ) ≤ (wordFreq phrases w : ℚ) := by exact_mod_cast hf
    have hdfQ : (wordFreq phrases w : ℚ) ≤ (wordDegree phrases w : ℚ) := by exact_mod_cast hdf
    refine ⟨rfl, ?_, ?_⟩
    · exact div_le_self (by positivity) hfQ1
    · rw [rakeScore, div_le_div_iff_of_pos_right hfQ]
      exact le_trans hfQ1 hdfQ
  · intro p k hp hnd hk hw
    have hfreq : wordFreq (buildPhrases sentences stop) w = 1 := by
      rw [hp, wordFreq, List.countP_cons, List.countP_nil]
      simp [hw]
    have hdeg : wordDegree (buildPhrases sentences stop) w = k := by
      rw [hp, wordDegree, List.filter_cons]
      simp [hw, hk]
    refine ⟨hdeg, hfreq, ?_⟩
    rw [rakeScore, hdeg, hfreq]
    norm_num

/-- C6 witness: the single sentence `["cat", "dog"]` with no stop words yields
the single phrase `["cat", "dog"]`; the word `"cat"` has degree 2, frequency 1
and score 2, and the general bounds hold at it. -/
theorem rakeScore_bounds_witness :
    (rakeScore (buildPhrases [["cat", "dog"]] []) "cat" =
          (wordDegree (buildPhrases [["cat", "dog"]] []) "cat" : ℚ) /
            (wordFreq (buildPhrases [["cat", "dog"]] []) "cat" : ℚ) ∧
        rakeScore (buildPhrases [["cat", "dog"]] []) "cat" ≤
          (wordDegree (buildPhrases [["cat", "dog"]] []) "cat" : ℚ) ∧
        1 / (wordFreq (buildPhrases [["cat", "dog"]] []) "cat" : ℚ) ≤
          rakeScore (buildPhrases [["cat", "dog"]] []) "cat") ∧
      wordDegree (buildPhrases [["cat", "dog"]] []) "cat" = 2 ∧
        wordFreq (buildPhrases [["cat", "dog"]] []) "cat" = 1 ∧
        rakeScore (buildPhrases [["cat", "dog"]] []) "cat" = (2 : ℚ) :=
  ⟨(rakeScore_bounds [["cat", "dog"]] [] "cat").1 (by decide),
    (rakeScore_bounds [["cat", "dog"]] [] "cat").2 ["cat", "dog"] 2
      (by decide) (by decide) (by decide) (by decide)⟩

/-- C10: every score the RAKE scorer produces is at least 1: a word's degree
is at least its frequency because every phrase containing the word has at
least one word. -/
theorem rakeScore_ge_one (sentences : List (List String)) (stop : List String) (w : String)
    (hf : 0 < wordFreq (buildPhrases sentences stop) w) :
    1 ≤ rakeScore (buildPhrases sentences stop) w := by
  have hdf := wordFreq_le_wordDegree (buildPhrases sentences stop) w
  have hfQ : (0 : ℚ) < (wordFreq (buildPhrases sentences stop) w : ℚ) := by exact_mod_cast hf
  rw [rakeScore, one_le_div hfQ]
  exact_mod_cast hdf

/-- C10 witness: the score of `"cat"` in the single-sentence document
`["cat", "dog"]` with no stop words is at least 1. -/
theorem rakeScore_ge_one_witness :
    1 ≤ rakeScore (buildPhrases [["cat", "dog"]] []) "cat" :=
  rakeScore_ge_one [["cat", "dog"]] [] "cat" (by decide)

/-! ## Embedding-based keyword ranking

`main.py` lines 590-600 (`keyword_extraction_test`): for each n-gram width the
candidates come from a fitted `CountVectorizer`, the document and the
candidates are embedded by the external sentence encoder, and
`keywords = [candidates[index] for index in distances.argsort()[0][-top_n:]]`
selects indices by the cosine-similarity row. The encoder and the cosine
computation are external capabilities; the model takes the candidate list and
the similarity score of each candidate (a rational standing for the float) as
given and reproduces the selection. `numpy.argsort` sorts ascending; the model
fixes ties by index (numpy's unstable default sort agrees with it whenever the
scores are distinct, and no theorem below depends on the tie order). -/

/-- The similarity score of candidate index `i` in the cosine-similarity row. -/
def simAt (scores : List ℚ) (i : Nat) : ℚ := scores.getD i 0

/-- Index comparison for `argsort`: by score ascending, ties by index. -/
def argsortRel (scores : List ℚ) (i j : Nat) : Prop :=
  simAt scores i < simAt scores j ∨ (simAt scores i = simAt scores j ∧ i ≤ j)

instance (scores : List ℚ) : DecidableRel (argsortRel scores) :=
  fun _ _ => inferInstanceAs (Decidable (_ ∨ _))

instance (scores : List ℚ) : IsTotal Nat (argsortRel scores) := by
  constructor
  intro i j
  rcases lt_trichotomy (simAt scores i) (simAt scores j) with h | h | h
  · exact Or.inl (Or.inl h)
  · rcases Nat.le_total i j with hij | hij
    · exact Or.inl (Or.inr ⟨h, hij⟩)
    · exact Or.inr (Or.inr ⟨h.symm, hij⟩)
  · exact Or.inr (Or.inl h)

instance (scores : List ℚ) : IsTrans Nat (argsortRel scores) := by
  constructor
  intro i j k hij hjk
  rcases hij with h₁ | ⟨h₁, hi₁⟩ <;> rcases hjk with h₂ | ⟨h₂, hi₂⟩
  · exact Or.inl (h₁.trans h₂)
  · exact Or.inl (h₂ ▸ h₁)
  · exact Or.inl (h₁ ▸ h₂)
  · exact Or.inr ⟨h₁.trans h₂, hi₁.trans hi₂⟩

/-- `distances.argsort()[0]`: the candidate indices sorted by ascending
similarity. -/
def argsortIdx (scores : List ℚ) : List Nat :=
  List.insertionSort (argsortRel scores) (List.range scores.length)

/-- `[-top_n:]` with `top_n = 10`: the last ten entries of the ascending
argsort (all of them when there are fewer than ten). -/
def topIndices (scores : List ℚ) : List Nat :=
  (argsortIdx scores).drop ((argsortIdx scores).length - 10)

/-- `keywords = [candidates[index] for index in distances.argsort()[0][-top_n:]]`
(`main.py` lines 598-599). -/
def embedTopKeywords (candidates : List String) (scores : List ℚ) : List String :=
  (topIndices scores).map (fun i => candidates.getD i "")

example : embedTopKeywords ["low", "mid", "high"] [1, 3, 2] = ["low", "high", "mid"] := by decide

/-- If the scores are weakly ascending along the full sorted index list, they
are weakly ascending along the kept suffix, and every dropped index scores no
higher than every kept index. -/
theorem argsortIdx_sorted (scores : List ℚ) :
    List.Sorted (argsortRel scores) (argsortIdx scores) :=
  List.sorted_insertionSort (argsortRel scores) (List.range scores.length)

/-- C4, counterexample: with two candidates of similarities 1 < 2 the code
returns them in ascending similarity order — the first listed keyword has the
strictly smaller similarity — so the list is not in descending order. -/
theorem embedTopKeywords_not_descending :
    embedTopKeywords ["low", "high"] [1, 2] = ["low", "high"] ∧
      embedTopKeywords ["low", "high"] [1, 2] ≠ ["high", "low"] ∧
      simAt [1, 2] 0 < simAt [1, 2] 1 := by
  refine ⟨by decide, by decide, by decide⟩

/-- C4 (amended): the ranker returns the (up to) 10 candidates of highest
cosine similarity, listed in ascending order of similarity: the selection has
length `min 10 (number of scores)`, the similarity scores are weakly
ascending along the kept indices, every dropped index scores no higher than
every kept index, and the keyword list is the image of the kept indices —
deterministic for fixed candidates and scores, with ties broken by candidate
index. -/
theorem embedTopKeywords_ranking (candidates : List String) (scores : List ℚ) :
    (embedTopKeywords candidates scores).length = min 10 scores.length ∧
      List.Sorted (fun i j => simAt scores i ≤ simAt scores j) (topIndices scores) ∧
      (∀ i ∈ (argsortIdx scores).take ((argsortIdx scores).length - 10),
        ∀ j ∈ topIndices scores, simAt scores i ≤ simAt scores j) ∧
      embedTopKeywords candidates scores =
        (topIndices scores).map (fun i => candidates.getD i "") := by
  have hlen : (argsortIdx scores).length = scores.length := by
    rw [argsortIdx, List.length_insertionSort, List.length_range]
  have hrelle : ∀ i j, argsortRel scores i j → simAt scores i ≤ simAt scores j := by
    intro i j h
    rcases h with h | ⟨h, _⟩
    · exact le_of_lt h
    · exact le_of_eq h
  refine ⟨?_, ?_, ?_, rfl⟩
  · rw [embedTopKeywords, List.length_map, topIndices, List.length_drop, hlen]
    omega
  · exact List.Pairwise.imp (hrelle _ _) ((argsortIdx_sorted scores).sublist (List.drop_sublist _ _))
  · have hsp := argsortIdx_sorted scores
    rw [List.Sorted, ← List.take_append_drop ((argsortIdx scores).length - 10) (argsortIdx scores),
      List.pairwise_append] at hsp
    intro i hi j hj
    exact hrelle i j (hsp.2.2 i hi j hj)

/-- C4 witness: with eleven candidates, the lowest-scoring index (10, score 0)
is the one dropped, and it scores no higher than the kept index 0. -/
theorem embedTopKeywords_ranking_witness :
    (embedTopKeywords ["a", "b", "c", "d", "e", "f", "g", "h", "i", "j", "k"]
          [1, 2, 3, 4, 5, 6, 7, 8, 9, 10, 0]).length =
        min 10 ([1, 2, 3, 4, 5, 6, 7, 8, 9, 10, 0] : List ℚ).length ∧
      simAt [1, 2, 3, 4, 5, 6, 7, 8, 9, 10, 0] 10 ≤
        simAt [1, 2, 3, 4, 5, 6, 7, 8, 9, 10, 0] 0 :=
  ⟨(embedTopKeywords_ranking ["a", "b", "c", "d", "e", "f", "g", "h", "i", "j", "k"]
      [1, 2, 3, 4, 5, 6, 7, 8, 9, 10, 0]).1,
    (embedTopKeywords_ranking ["a", "b", "c", "d", "e", "f", "g", "h", "i", "j", "k"]
      [1, 2, 3, 4, 5, 6, 7, 8, 9, 10, 0]).2.2.1 10 (by decide) 0 (by decide)⟩

/-! ## Per-width annotation of embedding-ranked keyword lists

`main.py` lines 590-600: the loop `for n in range(1, 4): ...
article['keywords_n'] = keywords` stores the keyword list of every width under
the literal dictionary key `'keywords_n'` (not an f-string: contrast the
adjacent `print(f'keywords_{n}: ...')`), so each width overwrites the
previous one. The article record is modelled as an insertion-ordered
association list, dict assignment as overwrite-or-append. -/

/-- Python dict assignment `d[k] = v` on an insertion-ordered association
list: overwrite in place when the key exists, append otherwise. -/
def setKey (m : List (String × List String)) (k : String) (v : List String) :
    List (String × List String) :=
  if m.any (fun p => p.1 = k) then m.map (fun p => if p.1 = k then (k, v) else p)
  else m ++ [(k, v)]

/-- The annotation loop (`main.py` lines 590-600): `kw n` is the keyword list
computed at n-gram width `n`; each iteration assigns it to the literal key
`"keywords_n"`. -/
def annotateKeywords (article : List (String × List String)) (kw : Nat → List String) :
    List (String × List String) :=
  [1, 2, 3].foldl (fun acc n => setKey acc "keywords_n" (kw n)) article

/-- C5: after the loop, a fresh record holds a single embedding-keyword entry:
the width-3 list under the literal key `"keywords_n"`; no `"keywords_1"`,
`"keywords_2"` or `"keywords_3"` key exists, so the width-1 and width-2 lists
are lost rather than stored under distinct keys. -/
theorem annotateKeywords_overwrites (kw : Nat → List String) :
    annotateKeywords [] kw = [("keywords_n", kw 3)] ∧
      (annotateKeywords [] kw).lookup "keywords_1" = none ∧
      (annotateKeywords [] kw).lookup "keywords_2" = none ∧
      (annotateKeywords [] kw).lookup "keywords_3" = none :=
  ⟨rfl, rfl, rfl, rfl⟩

/-! ## TF-IDF corpus weights and permutation invariance

`archived_methods.py` lines 119-126: `TfidfVectorizer().fit_transform(corpus)`
with sklearn defaults — lowercasing, token pattern `\b\w\w+\b` (maximal
word-character runs of length at least 2), raw term counts, smoothed idf
`ln((1 + n) / (1 + df)) + 1`, and l2 row normalization. Floats are modelled
as real numbers; the weight of a term for a document of fixed text content is
a function of the corpus only through its length, the per-term document
frequencies and the vocabulary term set, all invariant under permuting the
corpus. -/

/-- sklearn's default tokenization: lowercase, then every maximal
word-character run of length at least 2. -/
def sklearnTokens (text : String) : List String :=
  (wordRuns (text.toList.map Char.toLower)).filter (fun t => 2 ≤ t.length)

example : sklearnTokens "The cat's mat" = ["the", "cat", "mat"] := by decide

/-- Raw term frequency of `t` in a token list. -/
def tf (docTokens : List String) (t : String) : Nat := docTokens.count t

/-- Document frequency of term `t` over the corpus of raw texts. -/
def df (corpus : List String) (t : String) : Nat :=
  corpus.countP (fun d => t ∈ sklearnTokens d)

/-- Smoothed inverse document frequency (sklearn `smooth_idf=True` default):
`ln((1 + n) / (1 + df)) + 1`. -/
noncomputable def idf (corpus : List String) (t : String) : ℝ :=
  Real.log ((1 + corpus.length) / (1 + df corpus t)) + 1

/-- The unnormalized tf-idf entry of term `t` for a document with the given
text content. -/
noncomputable def rawWeight (corpus : List String) (docText t : String) : ℝ :=
  tf (sklearnTokens docText) t * idf corpus t

/-- The fitted vocabulary as a term set: all distinct tokens of the corpus
(its order is immaterial to the row norm below). -/
def vocabTerms (corpus : List String) : List String :=
  (corpus.flatMap sklearnTokens).dedup

/-- The squared l2 norm of the document's tf-idf row over the vocabulary. -/
noncomputable def rowSqNorm (corpus : List String) (docText : String) : ℝ :=
  ((vocabTerms corpus).map (fun t => rawWeight corpus docText t ^ 2)).sum

/-- The l2-normalized tf-idf weight (sklearn `norm='l2'` default) of term `t`
in the row of a document with the given text content. -/
noncomputable def tfidfWeight (corpus : List String) (docText t : String) : ℝ :=
  rawWeight corpus docText t / Real.sqrt (rowSqNorm corpus docText)

/-- C9: permuting the corpus changes no TF-IDF weight of a fixed document:
the corpus length, every term's document frequency, hence every idf, every
raw weight and the l2 row norm are permutation invariant, so each document's
descending-weight ranking — and with it the top-5 keyword list, up to
iteration order among tied weights — does not depend on corpus order. -/
theorem tfidfWeight_perm_invariant (c₁ c₂ : List String) (h : c₁.Perm c₂)
    (docText t : String) : tfidfWeight c₁ docText t = tfidfWeight c₂ docText t := by
  have hdf : ∀ s, df c₁ s = df c₂ s := fun s => h.countP_eq _
  have hlen : c₁.length = c₂.length := h.length_eq
  have hidf : ∀ s, idf c₁ s = idf c₂ s := by
    intro s
    rw [idf, idf, hdf, hlen]
  have hraw : ∀ s, rawWeight c₁ docText s = rawWeight c₂ docText s := by
    intro s
    rw [rawWeight, rawWeight, hidf]
  have hvoc : (vocabTerms c₁).Perm (vocabTerms c₂) :=
    (h.flatMap_right sklearnTokens).dedup
  have hnorm : rowSqNorm c₁ docText = rowSqNorm c₂ docText := by
    rw [rowSqNorm, rowSqNorm]
    have hfun : (fun s => rawWeight c₁ docText s ^ 2) =
        fun s => rawWeight c₂ docText s ^ 2 := by
      funext s
      rw [hraw]
    rw [hfun]
    exact (hvoc.map _).sum_eq
  rw [tfidfWeight, tfidfWeight, hraw, hnorm]

/-- C9 witness: swapping the two documents of a concrete corpus leaves the
weight of `"cat"` in the row of the first document unchanged. -/
theorem tfidfWeight_perm_invariant_witness :
    tfidfWeight ["big cat", "a dog"] "big cat" "cat" =
      tfidfWeight ["a dog", "big cat"] "big cat" "cat" :=
  tfidfWeight_perm_invariant ["big cat", "a dog"] ["a dog", "big cat"]
    (by decide) "big cat" "cat"

end NewsComparator
